import Mathlib

set_option maxRecDepth 100000

/-!
Verification of the yaya_webhook service (Go) against its specification.

The development shallowly embeds the webhook handler (`handler.go`,
`model.go`): signature generation/verification (HMAC-SHA256 over a fixed
concatenation of event fields, lowercase hex), the timestamp freshness
check, the handler's check ordering and responses, the SQLite upsert that
persists events, and the shopspring decimal representation of the `amount`
field.  Machine integers are modelled as `Int`/`Nat`; byte strings as
`List Nat` (each entry < 256).
-/

namespace Yaya

/-! ## Go strings, bytes, UTF-8 -/

/-- UTF-8 encoding of a single character, as Go's `[]byte(string)` produces
for each rune (code points are valid scalar values, as in Lean's `Char`). -/
def utf8Encode (c : Char) : List Nat :=
  let n := c.toNat
  if n < 128 then [n]
  else if n < 2048 then [192 + n / 64, 128 + n % 64]
  else if n < 65536 then [224 + n / 4096, 128 + n / 64 % 64, 128 + n % 64]
  else [240 + n / 262144, 128 + n / 4096 % 64, 128 + n / 64 % 64, 128 + n % 64]

/-- The byte sequence of a Go string: UTF-8 bytes of its characters
(Go's `[]byte(s)`). -/
def strBytes (s : String) : List Nat :=
  s.data.foldr (fun c acc => utf8Encode c ++ acc) []

/-- Character-by-character scan with early exit: returns true iff the two
lists are equal, but stops at the first mismatch.  This is the operational
behaviour of the byte comparison inside Go's string `==` once the lengths
are known to agree. -/
def goCmp : List Char → List Char → Bool
  | [], [] => true
  | x :: xs, y :: ys => if x = y then goCmp xs ys else false
  | _, _ => false

/-- Operational model of Go's string equality `s == t`: compare lengths
first, then scan bytes with early exit. -/
def goStrEq (s t : String) : Bool :=
  if s.length = t.length then goCmp s.data t.data else false

/-- Number of character comparisons performed by the scan of `goStrEq`
(0 when the length check already fails): the timing cost model of the
comparison. -/
def scanSteps : List Char → List Char → Nat
  | x :: xs, y :: ys => if x = y then 1 + scanSteps xs ys else 1
  | _, _ => 0

/-- Comparison-step count of `goStrEq s t`: how many character comparisons
the early-exit scan performs. -/
def goStrEqSteps (s t : String) : Nat :=
  if s.length = t.length then scanSteps s.data t.data else 0

/-! ## Hex encoding -/

/-- Lowercase hexadecimal digits, as used by Go's `encoding/hex`. -/
def hexChars : List Char := "0123456789abcdef".data

/-- The lowercase hex digit for `n % 16`. -/
def hexDigitChar (n : Nat) : Char := hexChars.getD (n % 16) '0'

/-- Go's `hex.EncodeToString`: each byte becomes two lowercase hex digits,
high nibble first. -/
def hexEncodeBytes (bytes : List Nat) : List Char :=
  bytes.foldr (fun b acc => hexDigitChar (b / 16) :: hexDigitChar b :: acc) []

/-- Go's `hex.EncodeToString` as a `String`. -/
def hexEncode (bytes : List Nat) : String := ⟨hexEncodeBytes bytes⟩

/-! ## SHA-256 (FIPS 180-4) and HMAC (RFC 2104)

Executable model of Go's `crypto/sha256` and `crypto/hmac` on byte lists.
All recursion is structural so that concrete digests reduce in the kernel.
-/

/-- Truncation to a 32-bit word. -/
def w32 (n : Nat) : Nat := n % 4294967296

/-- Right rotation of a 32-bit word by `n` bits. -/
def rotr (n x : Nat) : Nat := (x >>> n) ||| w32 (x <<< (32 - n))

def shaCh (x y z : Nat) : Nat := (x &&& y) ^^^ ((x ^^^ 4294967295) &&& z)

def shaMaj (x y z : Nat) : Nat := (x &&& y) ^^^ (x &&& z) ^^^ (y &&& z)

def bigSigma0 (x : Nat) : Nat := rotr 2 x ^^^ rotr 13 x ^^^ rotr 22 x

def bigSigma1 (x : Nat) : Nat := rotr 6 x ^^^ rotr 11 x ^^^ rotr 25 x

def smallSigma0 (x : Nat) : Nat := rotr 7 x ^^^ rotr 18 x ^^^ (x >>> 3)

def smallSigma1 (x : Nat) : Nat := rotr 17 x ^^^ rotr 19 x ^^^ (x >>> 10)

/-- The 64 SHA-256 round constants. -/
def shaK : List Nat := [
  1116352408, 1899447441, 3049323471, 3921009573, 961987163, 1508970993, 2453635748, 2870763221,
  3624381080, 310598401, 607225278, 1426881987, 1925078388, 2162078206, 2614888103, 3248222580,
  3835390401, 4022224774, 264347078, 604807628, 770255983, 1249150122, 1555081692, 1996064986,
  2554220882, 2821834349, 2952996808, 3210313671, 3336571891, 3584528711, 113926993, 338241895,
  666307205, 773529912, 1294757372, 1396182291, 1695183700, 1986661051, 2177026350, 2456956037,
  2730485921, 2820302411, 3259730800, 3345764771, 3516065817, 3600352804, 4094571909, 275423344,
  430227734, 506948616, 659060556, 883997877, 958139571, 1322822218, 1537002063, 1747873779,
  1955562222, 2024104815, 2227730452, 2361852424, 2428436474, 2756734187, 3204031479, 3329325298]

/-- SHA-256 hash state: eight 32-bit words. -/
structure ShaState where
  sa : Nat
  sb : Nat
  sc : Nat
  sd : Nat
  se : Nat
  sf : Nat
  sg : Nat
  sh : Nat

/-- SHA-256 initial hash value. -/
def shaInit : ShaState :=
  ⟨1779033703, 3144134277, 1013904242, 2773480762, 1359893119, 2600822924, 528734635, 1541459225⟩

/-- One SHA-256 round: `wk` is the pair (schedule word, round constant). -/
def shaRound (st : ShaState) (wk : Nat × Nat) : ShaState :=
  let t1 := w32 (st.sh + bigSigma1 st.se + shaCh st.se st.sf st.sg + wk.2 + wk.1)
  let t2 := w32 (bigSigma0 st.sa + shaMaj st.sa st.sb st.sc)
  ⟨w32 (t1 + t2), st.sa, st.sb, st.sc, w32 (st.sd + t1), st.se, st.sf, st.sg⟩

/-- Wordwise sum of two hash states, mod 2^32. -/
def addState (x y : ShaState) : ShaState :=
  ⟨w32 (x.sa + y.sa), w32 (x.sb + y.sb), w32 (x.sc + y.sc), w32 (x.sd + y.sd),
   w32 (x.se + y.se), w32 (x.sf + y.sf), w32 (x.sg + y.sg), w32 (x.sh + y.sh)⟩

/-- Big-endian packing of bytes into 32-bit words (4 bytes per word). -/
def toWords : List Nat → List Nat
  | a :: b :: c :: d :: rest => (a * 16777216 + b * 65536 + c * 256 + d) :: toWords rest
  | _ => []

/-- Extend the 16-word message schedule by `n` further words. -/
def extendSchedule : Nat → List Nat → List Nat
  | 0, w => w
  | n + 1, w =>
    let len := w.length
    let nw := w32 (smallSigma1 (w.getD (len - 2) 0) + w.getD (len - 7) 0 +
                   smallSigma0 (w.getD (len - 15) 0) + w.getD (len - 16) 0)
    extendSchedule n (w ++ [nw])

/-- Process one 64-byte block. -/
def processBlock (st : ShaState) (block : List Nat) : ShaState :=
  let ws := extendSchedule 48 (toWords block)
  addState st ((ws.zip shaK).foldl shaRound st)

/-- SHA-256 padding: append 0x80, zeros to 56 mod 64, then the 64-bit
big-endian bit length. -/
def padMessage (msg : List Nat) : List Nat :=
  let z := (120 - (msg.length + 1) % 64) % 64
  let bl := msg.length * 8
  msg ++ 128 :: List.replicate z 0 ++
    [bl / 72057594037927936 % 256, bl / 281474976710656 % 256,
     bl / 1099511627776 % 256, bl / 4294967296 % 256,
     bl / 16777216 % 256, bl / 65536 % 256, bl / 256 % 256, bl % 256]

/-- Split a byte list into 64-byte chunks (fuel-driven, structural). -/
def chunk64 : Nat → List Nat → List (List Nat)
  | 0, _ => []
  | _, [] => []
  | fuel + 1, l => l.take 64 :: chunk64 fuel (l.drop 64)

/-- Big-endian bytes of a 32-bit word. -/
def wordBytes (x : Nat) : List Nat :=
  [x / 16777216 % 256, x / 65536 % 256, x / 256 % 256, x % 256]

/-- The 32 digest bytes of a hash state. -/
def digestBytes (st : ShaState) : List Nat :=
  wordBytes st.sa ++ wordBytes st.sb ++ wordBytes st.sc ++ wordBytes st.sd ++
  wordBytes st.se ++ wordBytes st.sf ++ wordBytes st.sg ++ wordBytes st.sh

/-- SHA-256 of a byte list (Go's `sha256.Sum256`). -/
def sha256 (msg : List Nat) : List Nat :=
  let padded := padMessage msg
  digestBytes ((chunk64 padded.length padded).foldl processBlock shaInit)

/-- HMAC-SHA256 (Go's `hmac.New(sha256.New, key)` fed `msg`). -/
def hmacSha256 (key msg : List Nat) : List Nat :=
  let k0 := if 64 < key.length then sha256 key else key
  let kp := k0 ++ List.replicate (64 - k0.length) 0
  sha256 (kp.map (fun b => b ^^^ 92) ++ sha256 (kp.map (fun b => b ^^^ 54) ++ msg))

/-! ## Decimal digit strings

Rendering and parsing of decimal integers, used by the model of
`shopspring/decimal` (which the Go code uses for the `amount` field) and by
`fmt.Sprintf("%d", ...)` on `int64` fields.
-/

/-- Fuel-driven most-significant-first digit extraction (executable). -/
def digitsAux : Nat → Nat → List Nat → List Nat
  | 0, _, acc => acc
  | f + 1, m, acc => if m < 10 then m :: acc else digitsAux f (m / 10) (m % 10 :: acc)

/-- Base-10 digits of `n`, most significant first (`natDigits 0 = [0]`). -/
def natDigits (n : Nat) : List Nat := digitsAux (n + 1) n []

/-- Value of a most-significant-first digit list. -/
def ofDigits (l : List Nat) : Nat := l.foldl (fun a d => 10 * a + d) 0

/-- The character for digit `d`. -/
def digitChar (d : Nat) : Char := Char.ofNat (48 + d)

/-- Decimal rendering of a natural number, as Go's `strconv`/`big.Int`. -/
def natToStr (n : Nat) : String := ⟨(natDigits n).map digitChar⟩

/-- Decimal rendering of an integer (`fmt.Sprintf("%d", ...)`,
`big.Int.String`). -/
def intToStr (i : Int) : String :=
  if i < 0 then "-" ++ natToStr i.natAbs else natToStr i.natAbs

/-! ## shopspring/decimal model

`decimal.Decimal` is an arbitrary-precision integer `value` together with
an integer `exp`, denoting `value * 10^exp`.  The Go code decodes the JSON
`amount` into such a decimal and renders it with `Decimal.String()` both in
signature generation (`fmt.Sprintf("%s", ...)`) and when writing the
`amount` column (`webhook.Amount.String()`).
-/

structure GoDecimal where
  value : Int
  exp : Int
deriving DecidableEq

/-- Remove trailing zero digits. -/
def trimTrailingZeros (l : List Nat) : List Nat :=
  (l.reverse.dropWhile (fun d => d = 0)).reverse

/-- Model of `shopspring/decimal.Decimal.String()` (`d.string(true)`): for
`exp >= 0` the integer `value * 10^exp` in decimal; for `exp < 0` the digit
string of `|value|`, split `-exp` places from the right (zero-padded on the
left as needed), with trailing zeros of the fractional part trimmed, and a
leading minus sign for negative values. -/
def decToString (d : GoDecimal) : String :=
  if 0 ≤ d.exp then intToStr (d.value * 10 ^ d.exp.toNat)
  else
    let dExp := (-d.exp).toNat
    let digits := natDigits d.value.natAbs
    let intDs := if dExp < digits.length then digits.take (digits.length - dExp) else [0]
    let fracDs := if dExp < digits.length then digits.drop (digits.length - dExp)
                  else List.replicate (dExp - digits.length) 0 ++ digits
    let frac := trimTrailingZeros fracDs
    let body := String.mk (intDs.map digitChar) ++
      (if frac.isEmpty then "" else "." ++ String.mk (frac.map digitChar))
    if d.value < 0 then "-" ++ body else body

/-- Is `c` an ASCII decimal digit? -/
def isDigitChar (c : Char) : Bool := 48 ≤ c.toNat && c.toNat ≤ 57

/-- Digit value of an ASCII digit character. -/
def digitVal (c : Char) : Nat := c.toNat - 48

/-- One-or-more decimal digits, as `strconv.ParseInt` / `big.Int.SetString`
accept after the sign (leading zeros allowed). -/
def parseDigits (l : List Char) : Option Nat :=
  if l ≠ [] ∧ l.all isDigitChar then some (ofDigits (l.map digitVal)) else none

/-- Model of Go's base-10 integer parsing (`strconv.ParseInt` /
`big.Int.SetString`): optional sign, then one or more digits.  Width limits
(`int64`/`int32` bit sizes) are not modelled; `shopspring` switches to
`big.Int` for long inputs, so the mantissa is arbitrary precision in the
code as well. -/
def parseIntText : List Char → Option Int
  | [] => none
  | c :: rest =>
    if c = '-' then (parseDigits rest).map (fun n => -(n : Int))
    else if c = '+' then (parseDigits rest).map (fun n => (n : Int))
    else (parseDigits (c :: rest)).map (fun n => (n : Int))

/-- Split a character list at the first character satisfying `p`:
returns the prefix and, when found, the remainder after that character. -/
def splitAtFirst (p : Char → Bool) : List Char → List Char × Option (List Char)
  | [] => ([], none)
  | c :: rest =>
    if p c then ([], some rest)
    else
      let r := splitAtFirst p rest
      (c :: r.1, r.2)

/-- Core of `decimal.NewFromString` on the character list: an optional
exponent part introduced by the first `e`/`E`, a mantissa with at most one
`.`, the mantissa's digits (with the sign) parsed as an integer, and the
exponent decreased by the number of fractional digits. -/
def decFromStringAux (cs : List Char) : Option GoDecimal :=
  let em := splitAtFirst (fun c => c = 'e' || c = 'E') cs
  let expPart : Option Int := match em.2 with
    | none => some 0
    | some es => parseIntText es
  match expPart with
  | none => none
  | some e0 =>
    let dm := splitAtFirst (fun c => c = '.') em.1
    match dm.2 with
    | none => (parseIntText em.1).map (fun v => ⟨v, e0⟩)
    | some fracPart =>
      if fracPart.any (fun c => c = '.') then none
      else (parseIntText (dm.1 ++ fracPart)).map
        (fun v => ⟨v, e0 - fracPart.length⟩)

/-- Model of `decimal.NewFromString` (what `Decimal.UnmarshalJSON` invokes
on the received `amount` text). -/
def decFromString (s : String) : Option GoDecimal :=
  decFromStringAux s.data

/-- Specification twin of `natDigits`, convenient for induction (no
fuel). -/
def natDigitsW (n : Nat) : List Nat :=
  if _h : n < 10 then [n] else natDigitsW (n / 10) ++ [n % 10]
termination_by n
decreasing_by exact Nat.div_lt_self (by omega) (by omega)

/-- A decimal is normalized when its rendering loses no information:
either it is an integer with exponent 0, or it has fractional digits whose
last digit is nonzero. -/
def normalizedDec (d : GoDecimal) : Prop :=
  d.exp = 0 ∨ (d.exp < 0 ∧ d.value % 10 ≠ 0)

/-! ## Data model (`model.go`) -/

/-- The decoded webhook payload (`YayaWebhook` in `model.go`).  `Currency`
is a string type in Go with no decode-time validation, so it is a plain
string here; `amount` is a `shopspring` decimal; the two time fields are
`int64`. -/
structure YayaWebhook where
  id : String
  amount : GoDecimal
  currency : String
  createdAtTime : Int
  timeStamp : Int
  cause : String
  fullName : String
  accountName : String
  invoiceUrl : String
deriving DecidableEq

/-- The wire response (`Response` in `model.go`).  In Go the `message` and
`error` fields have zero value `""` (and are omitted from JSON when empty);
a field is "populated" when it is nonempty. -/
structure Response where
  statusCode : Nat
  message : String
  error : String
deriving DecidableEq

/-! ## Authenticator (`handler.go`) -/

/-- `generateSignature`: concatenate id, amount, currency, created_at_time,
timestamp, cause, full_name, account_name, invoice_url
(`fmt.Sprintf("%s%s%s%d%d%s%s%s%s", ...)`; `%s` on the decimal invokes
`Decimal.String()`, `%d` renders the `int64`s in decimal). -/
def concatPayload (p : YayaWebhook) : String :=
  p.id ++ decToString p.amount ++ p.currency ++ intToStr p.createdAtTime ++
  intToStr p.timeStamp ++ p.cause ++ p.fullName ++ p.accountName ++ p.invoiceUrl

/-- `generateSignature`: lowercase-hex HMAC-SHA256 of the concatenated
payload under the secret key. -/
def generateSignature (secretKey : String) (payload : YayaWebhook) : String :=
  hexEncode (hmacSha256 (strBytes secretKey) (strBytes (concatPayload payload)))

/-- `verifySignature`: Go's `signature == signedPayload`, a plain string
equality (length check, then byte scan with early exit). -/
def verifySignature (secret signature : String) (payload : YayaWebhook) : Bool :=
  goStrEq signature (generateSignature secret payload)

/-- `validateTimestamp`: `diff := now - timestamp`;
`diff >= 0 && diff <= int64(tolerance.Seconds())`. -/
def validateTimestamp (now timestamp tolSeconds : Int) : Bool :=
  decide (0 ≤ now - timestamp) && decide (now - timestamp ≤ tolSeconds)

/-- The handler's freshness window: `int64((5 * time.Minute).Seconds())`,
i.e. 300 seconds. -/
def freshnessWindowSeconds : Int := 300

def missingSignatureResp : Response := ⟨400, "", "signature is missing"⟩

def invalidDataResp : Response := ⟨400, "", "invalid data"⟩

def invalidTimestampResp : Response := ⟨400, "", "invalid timestamp"⟩

def invalidSignatureResp : Response := ⟨400, "", "invalid signature"⟩

def successResp : Response := ⟨200, "Webhook received successfully", ""⟩

/-- `YayayWebhookHandler`'s decision logic.  Inputs: the `YAYA-SIGNATURE`
header value (Go's `Header.Get` yields `""` when the header is missing),
the decoded body (`none` when `json.Decode` fails), and the wall clock
`now` read by `validateTimestamp`.  Output: the response written to the
caller, and the event handed to the detached persistence goroutine (`none`
when a check failed and the handler returned early). -/
def YayayWebhookHandler (secret signature : String) (body : Option YayaWebhook)
    (now : Int) : Response × Option YayaWebhook :=
  if signature = "" then (missingSignatureResp, none)
  else
    match body with
    | none => (invalidDataResp, none)
    | some req =>
      if validateTimestamp now req.timeStamp freshnessWindowSeconds then
        if verifySignature secret signature req then (successResp, some req)
        else (invalidSignatureResp, none)
      else (invalidTimestampResp, none)

/-! ## Ingestor (`saveWebhookToDatabase`) -/

/-- A row of the `webhooks` table: the payload columns plus the
system-assigned `created_at` and `updated_at` timestamps. -/
structure StoredRow where
  id : String
  amount : String
  currency : String
  createdAtTime : Int
  timeStamp : Int
  cause : String
  fullName : String
  accountName : String
  invoiceUrl : String
  createdAt : Int
  updatedAt : Int
deriving DecidableEq

/-- The row the insert binds: all payload columns (amount as
`webhook.Amount.String()`) and `created_at = updated_at = now`. -/
def rowOf (w : YayaWebhook) (now : Int) : StoredRow :=
  ⟨w.id, decToString w.amount, w.currency, w.createdAtTime, w.timeStamp,
   w.cause, w.fullName, w.accountName, w.invoiceUrl, now, now⟩

/-- SQLite semantics of `INSERT ... ON CONFLICT(id) DO UPDATE SET ...` on a
table with `id TEXT PRIMARY KEY`: if a row with the same `id` exists,
update every non-key column and `updated_at` from the excluded row,
leaving `created_at` as stored; otherwise append the new row. -/
def upsertRow : List StoredRow → StoredRow → List StoredRow
  | [], r => [r]
  | x :: xs, r =>
    if x.id = r.id then { r with createdAt := x.createdAt } :: xs
    else x :: upsertRow xs r

/-- `saveWebhookToDatabase`'s effect on the table state. -/
def saveWebhookToDatabase (table : List StoredRow) (w : YayaWebhook)
    (now : Int) : List StoredRow :=
  upsertRow table (rowOf w now)

/-- Number of rows holding identifier `i`. -/
def countId (table : List StoredRow) (i : String) : Nat :=
  (table.filter (fun r => r.id = i)).length

/-- The first row holding identifier `i`, if any. -/
def lookupId (table : List StoredRow) (i : String) : Option StoredRow :=
  table.find? (fun r => r.id = i)

/-- End-to-end request processing: the handler decides, and the detached
task then runs the upsert when the checks passed and the store is
available (`dbOk = false` models persistence-unavailable / write-failed).
The first component is the caller-visible response. -/
def processRequest (secret signature : String) (body : Option YayaWebhook)
    (now : Int) (table : List StoredRow) (dbOk : Bool) (saveNow : Int) :
    Response × List StoredRow :=
  let rp := YayayWebhookHandler secret signature body now
  (rp.1, match rp.2 with
    | some w => if dbOk then saveWebhookToDatabase table w saveNow else table
    | none => table)

/-- The concrete event of the spec's end-to-end scenario (§8): amount
`"100"` decodes to the decimal `100 * 10^0`. -/
def specEvent : YayaWebhook :=
  ⟨"abc123", ⟨100, 0⟩, "ETB", 1700000000, 1700000000, "Testing",
   "Abebe Kebede", "abebekebede1", "https://yayawallet.com/en/invoice/xxxx"⟩

/-- A sequence of ingest calls (event, wall-clock time) applied to the
initially empty store. -/
def ingestAll (ws : List (YayaWebhook × Int)) : List StoredRow :=
  ws.foldl (fun t p => saveWebhookToDatabase t p.1 p.2) []

/-- The reconstructed signature for the spec's end-to-end event under
secret `"secret"`. -/
def cSig : String := generateSignature "secret" specEvent

/-- A rejected token of the right length whose first character already
mismatches the reconstructed signature. -/
def cTok1 : String := ⟨List.replicate 64 'g'⟩

/-- A rejected token of the right length agreeing with the reconstructed
signature on its first 63 characters. -/
def cTok2 : String := ⟨cSig.data.take 63 ++ ['g']⟩

/-! ## Basic lemmas -/

theorem goCmp_iff : ∀ xs ys : List Char, goCmp xs ys = true ↔ xs = ys := by
  intro xs
  induction xs with
  | nil => intro ys; cases ys <;> simp [goCmp]
  | cons x xs ih =>
    intro ys
    cases ys with
    | nil => simp [goCmp]
    | cons y ys => by_cases h : x = y <;> simp [goCmp, h, ih]

theorem goStrEq_iff (s t : String) : goStrEq s t = true ↔ s = t := by
  unfold goStrEq
  split
  · rw [goCmp_iff]
    exact ⟨fun h2 => String.ext h2, fun h2 => by rw [h2]⟩
  · rename_i h
    simp only [Bool.false_eq_true, false_iff]
    intro h2
    exact h (by rw [h2])

theorem verifySignature_iff (secret sig : String) (p : YayaWebhook) :
    verifySignature secret sig p = true ↔ sig = generateSignature secret p := by
  unfold verifySignature
  exact goStrEq_iff _ _

theorem verifySignature_self (secret : String) (p : YayaWebhook) :
    verifySignature secret (generateSignature secret p) p = true :=
  (verifySignature_iff secret _ p).mpr rfl

theorem digestBytes_length (st : ShaState) : (digestBytes st).length = 32 := by
  simp [digestBytes, wordBytes]

theorem sha256_length (msg : List Nat) : (sha256 msg).length = 32 := by
  unfold sha256
  exact digestBytes_length _

theorem hmacSha256_length (key msg : List Nat) : (hmacSha256 key msg).length = 32 := by
  unfold hmacSha256
  exact sha256_length _

theorem hexEncodeBytes_length (bs : List Nat) :
    (hexEncodeBytes bs).length = 2 * bs.length := by
  induction bs with
  | nil => rfl
  | cons b bs ih => simp [hexEncodeBytes] at ih ⊢; omega

theorem generateSignature_length (secret : String) (p : YayaWebhook) :
    (generateSignature secret p).length = 64 := by
  show (hexEncodeBytes _).length = 64
  rw [hexEncodeBytes_length, hmacSha256_length]

theorem generateSignature_ne_empty (secret : String) (p : YayaWebhook) :
    generateSignature secret p ≠ "" := by
  intro h
  have h2 := generateSignature_length secret p
  rw [h] at h2
  simp [String.length] at h2

/-! ## Claim theorems -/

/-- C3: the freshness check accepts exactly when `0 <= now - timestamp <=
300` with the handler's 300-second window; at wall clock `T`, timestamp `T`
and `T - 300` are accepted, `T - 301` is rejected, and every strictly
future timestamp is rejected rather than clamped. -/
theorem validateTimestamp_freshness_boundary :
    (∀ now ts : Int, validateTimestamp now ts freshnessWindowSeconds = true ↔
      0 ≤ now - ts ∧ now - ts ≤ 300) ∧
    (∀ T : Int, validateTimestamp T T freshnessWindowSeconds = true ∧
      validateTimestamp T (T - 300) freshnessWindowSeconds = true ∧
      validateTimestamp T (T - 301) freshnessWindowSeconds = false ∧
      (∀ k : Int, 0 < k → validateTimestamp T (T + k) freshnessWindowSeconds = false)) := by
  constructor
  · intro now ts
    simp [validateTimestamp, freshnessWindowSeconds]
  · intro T
    refine ⟨?_, ?_, ?_, fun k hk => ?_⟩
    all_goals simp [validateTimestamp, freshnessWindowSeconds]
    all_goals omega

theorem validateTimestamp_freshness_boundary_witness :
    (0 : Int) < 1 ∧
      validateTimestamp 1700000000 (1700000000 + 1) freshnessWindowSeconds = false :=
  ⟨by decide, (validateTimestamp_freshness_boundary.2 1700000000).2.2.2 1 (by decide)⟩

theorem handler_resp_cases (secret sig : String) (body : Option YayaWebhook)
    (now : Int) :
    (YayayWebhookHandler secret sig body now).1 = missingSignatureResp ∨
    (YayayWebhookHandler secret sig body now).1 = invalidDataResp ∨
    (YayayWebhookHandler secret sig body now).1 = invalidTimestampResp ∨
    (YayayWebhookHandler secret sig body now).1 = invalidSignatureResp ∨
    (YayayWebhookHandler secret sig body now).1 = successResp := by
  unfold YayayWebhookHandler
  by_cases h1 : sig = ""
  · simp [h1]
  · simp only [h1, if_neg, if_false]
    cases body with
    | none => simp
    | some req =>
      simp only
      by_cases h2 : validateTimestamp now req.timeStamp freshnessWindowSeconds = true
      · by_cases h3 : verifySignature secret sig req = true
        · simp [h2, h3]
        · simp [h2, h3]
      · simp [h2]

/-- C9: every response the webhook handler produces carries a status code
and populates exactly one of the success message and the error string. -/
theorem handler_exactly_one_of_message_error (secret sig : String)
    (body : Option YayaWebhook) (now : Int) :
    ((YayayWebhookHandler secret sig body now).1.message = "" ∧
     (YayayWebhookHandler secret sig body now).1.error ≠ "") ∨
    ((YayayWebhookHandler secret sig body now).1.message ≠ "" ∧
     (YayayWebhookHandler secret sig body now).1.error = "") := by
  have h : ∀ r : Response,
      r = missingSignatureResp ∨ r = invalidDataResp ∨ r = invalidTimestampResp ∨
      r = invalidSignatureResp ∨ r = successResp →
      (r.message = "" ∧ r.error ≠ "") ∨ (r.message ≠ "" ∧ r.error = "") := by
    rintro r (rfl | rfl | rfl | rfl | rfl) <;> simp <;> decide
  exact h _ (handler_resp_cases secret sig body now)

/-- C2: the handler's checks run in the fixed order missing-signature,
malformed-body, freshness, signature match; each failure yields its own
distinct response and stops the pipeline, and a request carrying the
correct signature with a stale timestamp is rejected by the freshness check
(the response does not depend on the signature comparison at all). -/
theorem handler_check_order :
    (∀ secret : String, ∀ body : Option YayaWebhook, ∀ now : Int,
      YayayWebhookHandler secret "" body now = (missingSignatureResp, none)) ∧
    (∀ secret sig : String, ∀ now : Int, sig ≠ "" →
      YayayWebhookHandler secret sig none now = (invalidDataResp, none)) ∧
    (∀ secret sig : String, ∀ req : YayaWebhook, ∀ now : Int, sig ≠ "" →
      validateTimestamp now req.timeStamp freshnessWindowSeconds = false →
      YayayWebhookHandler secret sig (some req) now = (invalidTimestampResp, none)) ∧
    (∀ secret sig : String, ∀ req : YayaWebhook, ∀ now : Int, sig ≠ "" →
      validateTimestamp now req.timeStamp freshnessWindowSeconds = true →
      verifySignature secret sig req = false →
      YayayWebhookHandler secret sig (some req) now = (invalidSignatureResp, none)) ∧
    (∀ secret : String, ∀ req : YayaWebhook, ∀ now : Int,
      validateTimestamp now req.timeStamp freshnessWindowSeconds = false →
      YayayWebhookHandler secret (generateSignature secret req) (some req) now =
        (invalidTimestampResp, none)) ∧
    (missingSignatureResp ≠ invalidDataResp ∧
     missingSignatureResp ≠ invalidTimestampResp ∧
     missingSignatureResp ≠ invalidSignatureResp ∧
     invalidDataResp ≠ invalidTimestampResp ∧
     invalidDataResp ≠ invalidSignatureResp ∧
     invalidTimestampResp ≠ invalidSignatureResp) := by
  refine ⟨?_, ?_, ?_, ?_, ?_, by decide⟩
  · intro secret body now
    simp [YayayWebhookHandler]
  · intro secret sig now h
    simp [YayayWebhookHandler, h]
  · intro secret sig req now h hts
    simp [YayayWebhookHandler, h, hts]
  · intro secret sig req now h hts hsig
    simp [YayayWebhookHandler, h, hts, hsig]
  · intro secret req now hts
    simp [YayayWebhookHandler, generateSignature_ne_empty secret req, hts]

theorem handler_check_order_witness :
    ("x" : String) ≠ "" ∧
      validateTimestamp 0 specEvent.timeStamp freshnessWindowSeconds = false ∧
      YayayWebhookHandler "secret" (generateSignature "secret" specEvent)
        (some specEvent) 0 = (invalidTimestampResp, none) :=
  ⟨by decide, by decide,
    handler_check_order.2.2.2.2.1 "secret" specEvent 0 (by decide)⟩

/-- C10: signature reconstruction is not injective in the event: two
distinct events whose adjacent free-text fields split the same character
sequence differently concatenate to the same string, hence share every
HMAC signature, and any token accepted for one is accepted for the
other. -/
theorem concat_not_injective :
    ∃ e1 e2 : YayaWebhook, e1 ≠ e2 ∧ concatPayload e1 = concatPayload e2 ∧
      ∀ secret : String, generateSignature secret e1 = generateSignature secret e2 ∧
        ∀ token : String,
          verifySignature secret token e1 = verifySignature secret token e2 := by
  refine ⟨specEvent,
    { specEvent with cause := "TestingA", fullName := "bebe Kebede" }, ?_, ?_, ?_⟩
  · decide
  · decide
  · intro secret
    have hc : concatPayload specEvent =
        concatPayload { specEvent with cause := "TestingA", fullName := "bebe Kebede" } := by
      decide
    refine ⟨?_, fun token => ?_⟩
    · unfold generateSignature
      rw [hc]
    · unfold verifySignature generateSignature
      rw [hc]

/-- C1 (counterexample): the code compares with Go's plain string `==`,
which scans with an early exit — two rejected tokens of equal length cost
the comparison different numbers of character comparisons (1 versus 64),
so the comparison is not constant-time and leaks the mismatch position. -/
theorem signature_compare_not_constant_time :
    cTok1.length = cTok2.length ∧
    verifySignature "secret" cTok1 specEvent = false ∧
    verifySignature "secret" cTok2 specEvent = false ∧
    goStrEqSteps cTok1 cSig = 1 ∧
    goStrEqSteps cTok2 cSig = 64 :=
  ⟨by decide, by decide, by decide, by decide, by decide⟩

/-- C1 (amended): the comparison is Go's ordinary string equality — length
check plus byte scan with early exit, hence variable-time — and its boolean
result is true exactly when the caller-supplied token equals the
reconstructed lowercase-hex HMAC. -/
theorem verify_true_iff_token_eq_hmac (secret token : String) (p : YayaWebhook) :
    verifySignature secret token p = true ↔ token = generateSignature secret p :=
  verifySignature_iff secret token p

theorem hexDigitChar_contains (n : Nat) : hexChars.contains (hexDigitChar n) = true := by
  have h : n % 16 < 16 := Nat.mod_lt _ (by norm_num)
  unfold hexDigitChar
  set m := n % 16 with hm
  interval_cases m <;> decide

theorem hexEncodeBytes_all_hex (bs : List Nat) :
    (hexEncodeBytes bs).all hexChars.contains = true := by
  induction bs with
  | nil => rfl
  | cons b bs ih =>
    simp only [hexEncodeBytes, List.foldr_cons, List.all_cons, Bool.and_eq_true] at ih ⊢
    exact ⟨hexDigitChar_contains _, hexDigitChar_contains _, ih⟩

/-- C4: signature reconstruction concatenates id, amount, currency,
created_at_time, timestamp, cause, full_name, account_name, invoice_url
(numbers in plain decimal) and returns the lowercase-hex HMAC-SHA256 of
that string under the secret; on the spec's end-to-end event the
concatenation is the spec's string, and the digest (64 lowercase hex
characters for every event) matches an independently computed
HMAC-SHA256 value. -/
theorem generateSignature_reconstruction :
    concatPayload specEvent =
      "abc123100ETB17000000001700000000TestingAbebe Kebedeabebekebede1https://yayawallet.com/en/invoice/xxxx" ∧
    (∀ secret : String, ∀ p : YayaWebhook,
      generateSignature secret p =
        hexEncode (hmacSha256 (strBytes secret)
          (strBytes (p.id ++ decToString p.amount ++ p.currency ++
            intToStr p.createdAtTime ++ intToStr p.timeStamp ++ p.cause ++
            p.fullName ++ p.accountName ++ p.invoiceUrl)))) ∧
    generateSignature "secret" specEvent =
      "f16684be073432042524784b8845fad85161c541de85338a3764c673431003cb" ∧
    (∀ secret : String, ∀ p : YayaWebhook,
      (generateSignature secret p).length = 64 ∧
      (generateSignature secret p).data.all hexChars.contains = true) := by
  refine ⟨by decide, fun secret p => rfl, by decide,
    fun secret p => ⟨generateSignature_length secret p, ?_⟩⟩
  exact hexEncodeBytes_all_hex _

/-- C8: the caller-visible response never depends on the table state, on
store availability, or on the write's outcome; when every check passes the
caller gets the success response. -/
theorem success_response_independent_of_persistence :
    (∀ secret sig : String, ∀ body : Option YayaWebhook, ∀ now : Int,
      ∀ t t2 : List StoredRow, ∀ dbOk dbOk2 : Bool, ∀ sn sn2 : Int,
      (processRequest secret sig body now t dbOk sn).1 =
        (processRequest secret sig body now t2 dbOk2 sn2).1) ∧
    (∀ secret : String, ∀ req : YayaWebhook, ∀ now : Int,
      ∀ t : List StoredRow, ∀ dbOk : Bool, ∀ sn : Int,
      validateTimestamp now req.timeStamp freshnessWindowSeconds = true →
      (processRequest secret (generateSignature secret req) (some req) now t dbOk sn).1 =
        successResp) := by
  constructor
  · intro secret sig body now t t2 dbOk dbOk2 sn sn2
    rfl
  · intro secret req now t dbOk sn hts
    show (YayayWebhookHandler secret (generateSignature secret req) (some req) now).1 =
      successResp
    simp [YayayWebhookHandler, generateSignature_ne_empty secret req, hts,
      verifySignature_self]

theorem countId_cons (y : StoredRow) (t : List StoredRow) (i : String) :
    countId (y :: t) i = (if y.id = i then 1 else 0) + countId t i := by
  by_cases h : y.id = i <;> (simp [countId, List.filter_cons, h]; try omega)

theorem rowOf_id (w : YayaWebhook) (now : Int) : (rowOf w now).id = w.id := rfl

theorem upsertHead_id (r : StoredRow) (c : Int) :
    ({ r with createdAt := c } : StoredRow).id = r.id := rfl

theorem countId_upsert_ne (t : List StoredRow) (r : StoredRow) (i : String)
    (h : r.id ≠ i) : countId (upsertRow t r) i = countId t i := by
  induction t with
  | nil => simp [upsertRow, countId_cons, countId, h]
  | cons x xs ih =>
    rw [upsertRow]
    by_cases hx : x.id = r.id
    · rw [if_pos hx, countId_cons, countId_cons, upsertHead_id, if_neg h,
        if_neg (fun hh => h (hx.symm.trans hh))]
    · rw [if_neg hx, countId_cons, countId_cons, ih]

theorem countId_upsert_le (t : List StoredRow) (r : StoredRow)
    (h : ∀ j, countId t j ≤ 1) : ∀ j, countId (upsertRow t r) j ≤ 1 := by
  induction t with
  | nil =>
    intro j
    by_cases hj : r.id = j <;> simp [upsertRow, countId_cons, countId, hj]
  | cons x xs ih =>
    intro j
    have hxs : ∀ j2, countId xs j2 ≤ 1 := by
      intro j2
      have := h j2
      rw [countId_cons] at this
      omega
    rw [upsertRow]
    by_cases hx : x.id = r.id
    · rw [if_pos hx, countId_cons, upsertHead_id]
      by_cases hj : r.id = j
      · rw [if_pos hj]
        have := h j
        rw [countId_cons, if_pos (hx.trans hj)] at this
        omega
      · rw [if_neg hj]
        have := hxs j
        omega
    · rw [if_neg hx, countId_cons]
      by_cases hj : x.id = j
      · rw [if_pos hj]
        have hne : r.id ≠ j := fun hr => hx (hj.trans hr.symm)
        rw [countId_upsert_ne xs r j hne]
        have := h j
        rw [countId_cons, if_pos hj] at this
        omega
      · rw [if_neg hj]
        have := ih hxs j
        omega

theorem countId_upsert_pos (t : List StoredRow) (r : StoredRow) :
    1 ≤ countId (upsertRow t r) r.id := by
  induction t with
  | nil => simp [upsertRow, countId_cons, countId]
  | cons x xs ih =>
    rw [upsertRow]
    by_cases hx : x.id = r.id
    · rw [if_pos hx, countId_cons, upsertHead_id, if_pos rfl]
      omega
    · rw [if_neg hx, countId_cons, if_neg hx]
      omega

theorem countId_upsert_mono (t : List StoredRow) (r : StoredRow) (i : String)
    (h : 1 ≤ countId t i) : 1 ≤ countId (upsertRow t r) i := by
  by_cases hri : r.id = i
  · rw [← hri]
    exact countId_upsert_pos t r
  · rw [countId_upsert_ne t r i hri]
    exact h

theorem ingestAll_foldl_le (ws : List (YayaWebhook × Int)) :
    ∀ t : List StoredRow, (∀ j, countId t j ≤ 1) →
      ∀ j, countId (ws.foldl (fun t p => saveWebhookToDatabase t p.1 p.2) t) j ≤ 1 := by
  induction ws with
  | nil => intro t h j; exact h j
  | cons p ws ih =>
    intro t h j
    rw [List.foldl_cons]
    exact ih _ (countId_upsert_le t _ h) j

/-- C5: the store never holds two rows for one event id: every table
reachable by a sequence of ingest calls has at most one row per id,
ingesting the same event twice in sequence leaves exactly one row for its
id, and an id that is present stays present across any further ingest. -/
theorem store_unique_ids :
    (∀ ws : List (YayaWebhook × Int), ∀ i : String, countId (ingestAll ws) i ≤ 1) ∧
    (∀ ws : List (YayaWebhook × Int), ∀ w : YayaWebhook, ∀ n n2 : Int,
      countId (saveWebhookToDatabase (saveWebhookToDatabase (ingestAll ws) w n) w n2)
        w.id = 1) ∧
    (∀ t : List StoredRow, ∀ w : YayaWebhook, ∀ n : Int, ∀ i : String,
      1 ≤ countId t i → 1 ≤ countId (saveWebhookToDatabase t w n) i) := by
  have hbase : ∀ j, countId ([] : List StoredRow) j ≤ 1 := by
    intro j; simp [countId]
  refine ⟨fun ws i => ingestAll_foldl_le ws [] hbase i, ?_, ?_⟩
  · intro ws w n n2
    have hle : ∀ j, countId (ingestAll ws) j ≤ 1 := ingestAll_foldl_le ws [] hbase
    have h1 : ∀ j, countId (saveWebhookToDatabase (ingestAll ws) w n) j ≤ 1 :=
      countId_upsert_le _ _ hle
    have h2 : ∀ j, countId (saveWebhookToDatabase
        (saveWebhookToDatabase (ingestAll ws) w n) w n2) j ≤ 1 :=
      countId_upsert_le _ _ h1
    have h3 : 1 ≤ countId (saveWebhookToDatabase
        (saveWebhookToDatabase (ingestAll ws) w n) w n2) w.id :=
      countId_upsert_pos _ _
    have := h2 w.id
    omega
  · intro t w n i h
    exact countId_upsert_mono t _ i h

theorem store_unique_ids_witness :
    1 ≤ countId (ingestAll [(specEvent, 5)]) "abc123" ∧
      1 ≤ countId (saveWebhookToDatabase (ingestAll [(specEvent, 5)])
        { specEvent with cause := "again" } 9) "abc123" :=
  ⟨by decide, store_unique_ids.2.2 _ { specEvent with cause := "again" } 9 "abc123"
    (by decide)⟩

theorem lookupId_upsert_none (t : List StoredRow) (r : StoredRow)
    (h : lookupId t r.id = none) : lookupId (upsertRow t r) r.id = some r := by
  induction t with
  | nil => simp [upsertRow, lookupId, List.find?]
  | cons x xs ih =>
    rw [lookupId, List.find?] at h
    by_cases hx : x.id = r.id
    · simp [hx] at h
    · have hxd : (decide (x.id = r.id)) = false := by simp [hx]
      rw [hxd] at h
      rw [upsertRow, if_neg hx, lookupId, List.find?, hxd]
      exact ih h

theorem lookupId_upsert_some (t : List StoredRow) (r : StoredRow) (old : StoredRow)
    (h : lookupId t r.id = some old) :
    lookupId (upsertRow t r) r.id = some { r with createdAt := old.createdAt } := by
  induction t with
  | nil => simp [lookupId, List.find?] at h
  | cons x xs ih =>
    rw [lookupId, List.find?] at h
    by_cases hx : x.id = r.id
    · have hxd : (decide (x.id = r.id)) = true := by simp [hx]
      rw [hxd] at h
      have hold : x = old := by simpa using h
      rw [upsertRow, if_pos hx, lookupId, List.find?]
      have hhead : (decide (({ r with createdAt := x.createdAt } : StoredRow).id = r.id)) = true := by
        simp [show ({ r with createdAt := x.createdAt } : StoredRow).id = r.id from rfl]
      rw [hhead, hold]
    · have hxd : (decide (x.id = r.id)) = false := by simp [hx]
      rw [hxd] at h
      rw [upsertRow, if_neg hx, lookupId, List.find?, hxd]
      exact ih h

/-- C6: ingest is an upsert: with no row for the id it inserts the payload
row with `created_at` (first-seen) and `updated_at` set to now; with an
existing row it overwrites every non-key column with the new payload,
sets `updated_at` to now, and leaves the stored `created_at` untouched. -/
theorem upsert_insert_update_semantics :
    (∀ t : List StoredRow, ∀ w : YayaWebhook, ∀ now : Int,
      lookupId t w.id = none →
      lookupId (saveWebhookToDatabase t w now) w.id = some (rowOf w now)) ∧
    (∀ t : List StoredRow, ∀ w : YayaWebhook, ∀ now : Int, ∀ old : StoredRow,
      lookupId t w.id = some old →
      lookupId (saveWebhookToDatabase t w now) w.id =
        some { rowOf w now with createdAt := old.createdAt }) := by
  constructor
  · intro t w now h
    exact lookupId_upsert_none t (rowOf w now) h
  · intro t w now old h
    exact lookupId_upsert_some t (rowOf w now) old h

theorem upsert_insert_update_semantics_witness :
    lookupId [] specEvent.id = none ∧
      lookupId (saveWebhookToDatabase [] specEvent 7) specEvent.id =
        some (rowOf specEvent 7) :=
  ⟨rfl, upsert_insert_update_semantics.1 [] specEvent 7 rfl⟩

theorem success_response_independent_of_persistence_witness :
    validateTimestamp 1700000000 specEvent.timeStamp freshnessWindowSeconds = true ∧
    (processRequest "secret" (generateSignature "secret" specEvent) (some specEvent)
      1700000000 [] true 1700000002).1 = successResp :=
  ⟨by decide,
    success_response_independent_of_persistence.2 "secret" specEvent 1700000000 []
      true 1700000002 (by decide)⟩

/-! ## Decimal digit lemmas (for C7) -/

theorem foldl_digits (l : List Nat) :
    ∀ a : Nat, l.foldl (fun x d => 10 * x + d) a =
      a * 10 ^ l.length + l.foldl (fun x d => 10 * x + d) 0 := by
  induction l with
  | nil => intro a; simp
  | cons d l ih =>
    intro a
    rw [List.foldl_cons, List.foldl_cons, ih (10 * a + d), ih (10 * 0 + d)]
    simp only [List.length_cons, pow_succ]
    ring

theorem ofDigits_append (l1 l2 : List Nat) :
    ofDigits (l1 ++ l2) = ofDigits l1 * 10 ^ l2.length + ofDigits l2 := by
  unfold ofDigits
  rw [List.foldl_append, foldl_digits l2]

theorem ofDigits_cons_zero (l : List Nat) : ofDigits (0 :: l) = ofDigits l := rfl

theorem ofDigits_replicate_zero (k : Nat) (l : List Nat) :
    ofDigits (List.replicate k 0 ++ l) = ofDigits l := by
  induction k with
  | zero => rfl
  | succ k ih =>
    rw [List.replicate_succ, List.cons_append, ofDigits_cons_zero, ih]

theorem digitsAux_eq : ∀ f m : Nat, ∀ acc : List Nat, m < f →
    digitsAux f m acc = natDigitsW m ++ acc := by
  intro f
  induction f with
  | zero => intro m acc h; omega
  | succ f ih =>
    intro m acc h
    rw [digitsAux, natDigitsW]
    by_cases h10 : m < 10
    · rw [if_pos h10, dif_pos h10]
      rfl
    · rw [if_neg h10, dif_neg h10, ih (m / 10) _ (by omega)]
      simp

theorem natDigits_eq_W (n : Nat) : natDigits n = natDigitsW n := by
  have h := digitsAux_eq (n + 1) n [] (by omega)
  rw [natDigits, h, List.append_nil]

theorem ofDigits_natDigitsW (n : Nat) : ofDigits (natDigitsW n) = n := by
  induction n using Nat.strong_induction_on with
  | _ n ih =>
    rw [natDigitsW]
    by_cases h : n < 10
    · rw [dif_pos h]
      show 10 * 0 + n = n
      omega
    · rw [dif_neg h, ofDigits_append, ih (n / 10) (Nat.div_lt_self (by omega) (by omega))]
      show n / 10 * 10 ^ 1 + (10 * 0 + n % 10) = n
      omega

theorem natDigitsW_ne_nil (n : Nat) : natDigitsW n ≠ [] := by
  rw [natDigitsW]
  by_cases h : n < 10
  · rw [dif_pos h]; simp
  · rw [dif_neg h]; simp

theorem natDigitsW_lt_10 (n : Nat) : ∀ d ∈ natDigitsW n, d < 10 := by
  induction n using Nat.strong_induction_on with
  | _ n ih =>
    intro d hd
    rw [natDigitsW] at hd
    by_cases h : n < 10
    · rw [dif_pos h] at hd
      simp at hd
      omega
    · rw [dif_neg h] at hd
      rcases List.mem_append.mp hd with h1 | h2
      · exact ih (n / 10) (Nat.div_lt_self (by omega) (by omega)) d h1
      · simp at h2
        omega

theorem natDigitsW_last (n : Nat) : ∃ pre, natDigitsW n = pre ++ [n % 10] := by
  rw [natDigitsW]
  by_cases h : n < 10
  · exact ⟨[], by rw [dif_pos h]; simp [Nat.mod_eq_of_lt h]⟩
  · exact ⟨natDigitsW (n / 10), by rw [dif_neg h]⟩

theorem trim_append_ne (pre : List Nat) (d : Nat) (h : d ≠ 0) :
    trimTrailingZeros (pre ++ [d]) = pre ++ [d] := by
  unfold trimTrailingZeros
  rw [List.reverse_append]
  show ((d :: pre.reverse).dropWhile (fun x => x = 0)).reverse = pre ++ [d]
  rw [List.dropWhile_cons]
  simp [h]

theorem digitVal_digitChar (d : Nat) (h : d < 10) : digitVal (digitChar d) = d := by
  interval_cases d <;> decide

theorem isDigitChar_digitChar (d : Nat) (h : d < 10) :
    isDigitChar (digitChar d) = true := by
  interval_cases d <;> decide

theorem digitChar_ne_special (d : Nat) (h : d < 10) :
    digitChar d ≠ '.' ∧ digitChar d ≠ '-' ∧ digitChar d ≠ '+' ∧
    digitChar d ≠ 'e' ∧ digitChar d ≠ 'E' := by
  interval_cases d <;> decide

theorem parseDigits_map (ds : List Nat) (h : ∀ d ∈ ds, d < 10) (hne : ds ≠ []) :
    parseDigits (ds.map digitChar) = some (ofDigits ds) := by
  unfold parseDigits
  rw [if_pos]
  · congr 1
    rw [List.map_map]
    have h2 : ∀ d ∈ ds, (digitVal ∘ digitChar) d = id d := fun d hd =>
      digitVal_digitChar d (h d hd)
    rw [List.map_congr_left h2, List.map_id]
  · refine ⟨by simp [hne], ?_⟩
    rw [List.all_eq_true]
    intro c hc
    obtain ⟨d, hd, rfl⟩ := List.mem_map.mp hc
    exact isDigitChar_digitChar d (h d hd)

theorem parseIntText_digits (ds : List Nat) (h : ∀ d ∈ ds, d < 10) (hne : ds ≠ []) :
    parseIntText (ds.map digitChar) = some ((ofDigits ds : Nat) : Int) := by
  cases ds with
  | nil => exact absurd rfl hne
  | cons d ds =>
    have hd := h d (List.mem_cons_self _ _)
    have hsp := digitChar_ne_special d hd
    have hmap : (d :: ds).map digitChar = digitChar d :: ds.map digitChar := rfl
    rw [hmap]
    simp only [parseIntText]
    rw [if_neg hsp.2.1, if_neg hsp.2.2.1, ← hmap, parseDigits_map _ h hne]
    rfl

theorem parseIntText_neg_digits (ds : List Nat) (h : ∀ d ∈ ds, d < 10)
    (hne : ds ≠ []) :
    parseIntText ('-' :: ds.map digitChar) = some (-(ofDigits ds : Int)) := by
  simp only [parseIntText, if_true]
  rw [parseDigits_map _ h hne]
  rfl

theorem splitAtFirst_none (p : Char → Bool) (l : List Char)
    (h : ∀ c ∈ l, p c = false) : splitAtFirst p l = (l, none) := by
  induction l with
  | nil => rfl
  | cons c l ih =>
    have hc := h c (List.mem_cons_self _ _)
    simp only [splitAtFirst, hc, Bool.false_eq_true, if_false]
    rw [ih (fun x hx => h x (List.mem_cons_of_mem _ hx))]

theorem splitAtFirst_found (p : Char → Bool) (l1 : List Char) (c : Char)
    (l2 : List Char) (h : ∀ x ∈ l1, p x = false) (hc : p c = true) :
    splitAtFirst p (l1 ++ c :: l2) = (l1, some l2) := by
  induction l1 with
  | nil =>
    rw [List.nil_append]
    simp only [splitAtFirst, hc, if_true]
  | cons x l1 ih =>
    have hx := h x (List.mem_cons_self _ _)
    rw [List.cons_append]
    simp only [splitAtFirst, hx, Bool.false_eq_true, if_false]
    rw [ih (fun y hy => h y (List.mem_cons_of_mem _ hy))]

theorem decAux_plain (ds : List Nat) (h : ∀ d ∈ ds, d < 10) (hne : ds ≠ []) :
    decFromStringAux (ds.map digitChar) = some ⟨(ofDigits ds : Int), 0⟩ := by
  have hE : ∀ c ∈ ds.map digitChar, (fun c => c = 'e' || c = 'E' : Char → Bool) c = false := by
    intro c hc
    obtain ⟨d, hd, rfl⟩ := List.mem_map.mp hc
    have hsp := digitChar_ne_special d (h d hd)
    simp [hsp.2.2.2.1, hsp.2.2.2.2]
  have hD : ∀ c ∈ ds.map digitChar, (fun c => c = '.' : Char → Bool) c = false := by
    intro c hc
    obtain ⟨d, hd, rfl⟩ := List.mem_map.mp hc
    have hsp := digitChar_ne_special d (h d hd)
    simp [hsp.1]
  simp only [decFromStringAux]
  rw [splitAtFirst_none _ _ hE]
  dsimp only
  rw [splitAtFirst_none _ _ hD]
  dsimp only
  rw [parseIntText_digits ds h hne]
  rfl

theorem decAux_neg_plain (ds : List Nat) (h : ∀ d ∈ ds, d < 10) (hne : ds ≠ []) :
    decFromStringAux ('-' :: ds.map digitChar) = some ⟨-(ofDigits ds : Int), 0⟩ := by
  have hE : ∀ c ∈ '-' :: ds.map digitChar,
      (fun c => c = 'e' || c = 'E' : Char → Bool) c = false := by
    intro c hc
    rcases List.mem_cons.mp hc with rfl | hc2
    · decide
    · obtain ⟨d, hd, rfl⟩ := List.mem_map.mp hc2
      have hsp := digitChar_ne_special d (h d hd)
      simp [hsp.2.2.2.1, hsp.2.2.2.2]
  have hD : ∀ c ∈ '-' :: ds.map digitChar,
      (fun c => c = '.' : Char → Bool) c = false := by
    intro c hc
    rcases List.mem_cons.mp hc with rfl | hc2
    · decide
    · obtain ⟨d, hd, rfl⟩ := List.mem_map.mp hc2
      have hsp := digitChar_ne_special d (h d hd)
      simp [hsp.1]
  simp only [decFromStringAux]
  rw [splitAtFirst_none _ _ hE]
  dsimp only
  rw [splitAtFirst_none _ _ hD]
  dsimp only
  rw [parseIntText_neg_digits ds h hne]
  rfl

theorem decAux_frac (intDs fracDs : List Nat) (hi10 : ∀ d ∈ intDs, d < 10)
    (hf10 : ∀ d ∈ fracDs, d < 10) (hine : intDs ≠ []) (hfne : fracDs ≠ []) :
    decFromStringAux (intDs.map digitChar ++ '.' :: fracDs.map digitChar) =
      some ⟨(ofDigits (intDs ++ fracDs) : Int), -(fracDs.length : Int)⟩ := by
  have hE : ∀ c ∈ intDs.map digitChar ++ '.' :: fracDs.map digitChar,
      (fun c => c = 'e' || c = 'E' : Char → Bool) c = false := by
    intro c hc
    rcases List.mem_append.mp hc with hc1 | hc2
    · obtain ⟨d, hd, rfl⟩ := List.mem_map.mp hc1
      have hsp := digitChar_ne_special d (hi10 d hd)
      simp [hsp.2.2.2.1, hsp.2.2.2.2]
    · rcases List.mem_cons.mp hc2 with rfl | hc3
      · decide
      · obtain ⟨d, hd, rfl⟩ := List.mem_map.mp hc3
        have hsp := digitChar_ne_special d (hf10 d hd)
        simp [hsp.2.2.2.1, hsp.2.2.2.2]
  have hDint : ∀ x ∈ intDs.map digitChar, (fun c => c = '.' : Char → Bool) x = false := by
    intro c hc
    obtain ⟨d, hd, rfl⟩ := List.mem_map.mp hc
    have hsp := digitChar_ne_special d (hi10 d hd)
    simp [hsp.1]
  have hany : (fracDs.map digitChar).any (fun c => c = '.') = false := by
    rw [List.any_eq_false]
    intro c hc
    obtain ⟨d, hd, rfl⟩ := List.mem_map.mp hc
    have hsp := digitChar_ne_special d (hf10 d hd)
    simp [hsp.1]
  have hall : ∀ d ∈ intDs ++ fracDs, d < 10 := by
    intro d hd
    rcases List.mem_append.mp hd with h1 | h2
    · exact hi10 d h1
    · exact hf10 d h2
  have hne2 : intDs ++ fracDs ≠ [] := by
    intro hcon
    exact hine (List.append_eq_nil.mp hcon).1
  simp only [decFromStringAux]
  rw [splitAtFirst_none _ _ hE]
  dsimp only
  rw [splitAtFirst_found _ (intDs.map digitChar) '.' (fracDs.map digitChar) hDint
    (by decide)]
  dsimp only
  rw [if_neg (by simp [hany])]
  rw [← List.map_append, parseIntText_digits _ hall hne2]
  simp [List.length_map]

theorem decAux_neg_frac (intDs fracDs : List Nat) (hi10 : ∀ d ∈ intDs, d < 10)
    (hf10 : ∀ d ∈ fracDs, d < 10) (hine : intDs ≠ []) (hfne : fracDs ≠ []) :
    decFromStringAux ('-' :: (intDs.map digitChar ++ '.' :: fracDs.map digitChar)) =
      some ⟨-(ofDigits (intDs ++ fracDs) : Int), -(fracDs.length : Int)⟩ := by
  have hE : ∀ c ∈ '-' :: (intDs.map digitChar ++ '.' :: fracDs.map digitChar),
      (fun c => c = 'e' || c = 'E' : Char → Bool) c = false := by
    intro c hc
    rcases List.mem_cons.mp hc with rfl | hc0
    · decide
    · rcases List.mem_append.mp hc0 with hc1 | hc2
      · obtain ⟨d, hd, rfl⟩ := List.mem_map.mp hc1
        have hsp := digitChar_ne_special d (hi10 d hd)
        simp [hsp.2.2.2.1, hsp.2.2.2.2]
      · rcases List.mem_cons.mp hc2 with rfl | hc3
        · decide
        · obtain ⟨d, hd, rfl⟩ := List.mem_map.mp hc3
          have hsp := digitChar_ne_special d (hf10 d hd)
          simp [hsp.2.2.2.1, hsp.2.2.2.2]
  have hDint : ∀ x ∈ '-' :: intDs.map digitChar,
      (fun c => c = '.' : Char → Bool) x = false := by
    intro c hc
    rcases List.mem_cons.mp hc with rfl | hc2
    · decide
    · obtain ⟨d, hd, rfl⟩ := List.mem_map.mp hc2
      have hsp := digitChar_ne_special d (hi10 d hd)
      simp [hsp.1]
  have hany : (fracDs.map digitChar).any (fun c => c = '.') = false := by
    rw [List.any_eq_false]
    intro c hc
    obtain ⟨d, hd, rfl⟩ := List.mem_map.mp hc
    have hsp := digitChar_ne_special d (hf10 d hd)
    simp [hsp.1]
  have hall : ∀ d ∈ intDs ++ fracDs, d < 10 := by
    intro d hd
    rcases List.mem_append.mp hd with h1 | h2
    · exact hi10 d h1
    · exact hf10 d h2
  have hne2 : intDs ++ fracDs ≠ [] := by
    intro hcon
    exact hine (List.append_eq_nil.mp hcon).1
  simp only [decFromStringAux]
  rw [splitAtFirst_none _ _ hE]
  dsimp only
  rw [show ('-' :: (intDs.map digitChar ++ '.' :: fracDs.map digitChar)) =
    (('-' :: intDs.map digitChar) ++ '.' :: fracDs.map digitChar) from rfl]
  rw [splitAtFirst_found _ ('-' :: intDs.map digitChar) '.' (fracDs.map digitChar)
    hDint (by decide)]
  dsimp only
  rw [if_neg (by simp [hany])]
  rw [show ('-' :: intDs.map digitChar) ++ fracDs.map digitChar =
    '-' :: (intDs.map digitChar ++ fracDs.map digitChar) from rfl]
  rw [← List.map_append, parseIntText_neg_digits _ hall hne2]
  simp [List.length_map]

theorem decFromString_intToStr (v : Int) : decFromString (intToStr v) = some ⟨v, 0⟩ := by
  have h10 := natDigitsW_lt_10 v.natAbs
  have hne := natDigitsW_ne_nil v.natAbs
  by_cases hv : v < 0
  · have hdata : (intToStr v).data = '-' :: (natDigitsW v.natAbs).map digitChar := by
      simp only [intToStr]
      rw [if_pos hv, String.data_append,
        show ("-" : String).data = ['-'] from rfl,
        show (natToStr v.natAbs).data = (natDigits v.natAbs).map digitChar from rfl,
        natDigits_eq_W]
      rfl
    show decFromStringAux (intToStr v).data = _
    rw [hdata, decAux_neg_plain _ h10 hne, ofDigits_natDigitsW]
    have hval : -((v.natAbs : Nat) : Int) = v := by omega
    rw [hval]
  · have hdata : (intToStr v).data = (natDigitsW v.natAbs).map digitChar := by
      simp only [intToStr]
      rw [if_neg hv,
        show (natToStr v.natAbs).data = (natDigits v.natAbs).map digitChar from rfl,
        natDigits_eq_W]
    show decFromStringAux (intToStr v).data = _
    rw [hdata, decAux_plain _ h10 hne, ofDigits_natDigitsW]
    have hval : ((v.natAbs : Nat) : Int) = v := by omega
    rw [hval]

theorem decAux_data_pos (ics fcs : List Char) :
    (String.mk ics ++ ("." ++ String.mk fcs)).data = ics ++ '.' :: fcs := by
  simp [String.data_append]

theorem decAux_data_neg (ics fcs : List Char) :
    (("-" : String) ++ (String.mk ics ++ ("." ++ String.mk fcs))).data =
      '-' :: (ics ++ '.' :: fcs) := by
  simp [String.data_append]

/-- C7 (amended): the amount text used for storage and in the signature
concatenation is in both places `Decimal.String()` of the decimal actually
received, an exact decimal rendering with no floating point anywhere:
re-parsing the rendered text recovers the received decimal exactly
(stated for normalized decimals — exponent zero, or fractional digits with
a nonzero last digit).  The rendering need not be byte-identical to the
received request text, which may use scientific notation, padding zeros or
trailing fractional zeros. -/
theorem amount_roundtrip_exact :
    (∀ p : YayaWebhook, ∀ now : Int, (rowOf p now).amount = decToString p.amount) ∧
    (∀ d : GoDecimal, normalizedDec d → decFromString (decToString d) = some d) := by
  refine ⟨fun p now => rfl, fun d hd => ?_⟩
  obtain ⟨v, e⟩ := d
  rw [normalizedDec] at hd
  dsimp only at hd
  rcases hd with he | ⟨he, hv⟩
  · subst he
    have h1 : decToString ⟨v, (0 : Int)⟩ = intToStr v := by
      simp only [decToString]
      rw [if_pos (le_refl (0 : Int))]
      norm_num
    rw [h1, decFromString_intToStr]
  · have hnotle : ¬ (0 : Int) ≤ e := by omega
    have hn10 : v.natAbs % 10 ≠ 0 := by omega
    have h10 := natDigitsW_lt_10 v.natAbs
    have hnenil := natDigitsW_ne_nil v.natAbs
    obtain ⟨pre, hpre⟩ := natDigitsW_last v.natAbs
    show decFromStringAux (decToString ⟨v, e⟩).data = some ⟨v, e⟩
    simp only [decToString]
    rw [if_neg hnotle, natDigits_eq_W]
    set len := (natDigitsW v.natAbs).length with hlen
    have hlenpre : len = pre.length + 1 := by
      rw [hlen, hpre]
      simp
    by_cases hsplit : (-e).toNat < len
    · rw [if_pos hsplit, if_pos hsplit]
      have hfrac_eq :
          (natDigitsW v.natAbs).drop (len - (-e).toNat) =
            pre.drop (len - (-e).toNat) ++ [v.natAbs % 10] := by
        rw [hpre]
        exact List.drop_append_of_le_length (by omega)
      have htrim :
          trimTrailingZeros ((natDigitsW v.natAbs).drop (len - (-e).toNat)) =
          (natDigitsW v.natAbs).drop (len - (-e).toNat) := by
        rw [hfrac_eq]
        exact trim_append_ne _ _ hn10
      rw [htrim]
      have hfrac_ne : (natDigitsW v.natAbs).drop (len - (-e).toNat) ≠ [] := by
        rw [hfrac_eq]
        simp
      have hint_ne : (natDigitsW v.natAbs).take (len - (-e).toNat) ≠ [] := by
        intro hcon
        have h2 := congrArg List.length hcon
        rw [List.length_take, ← hlen] at h2
        simp at h2
        omega
      have hi10 : ∀ d ∈ (natDigitsW v.natAbs).take (len - (-e).toNat), d < 10 :=
        fun d hd => h10 d (List.take_subset _ _ hd)
      have hf10 : ∀ d ∈ (natDigitsW v.natAbs).drop (len - (-e).toNat), d < 10 :=
        fun d hd => h10 d (List.drop_subset _ _ hd)
      have hdroplen : ((natDigitsW v.natAbs).drop (len - (-e).toNat)).length = (-e).toNat := by
        rw [List.length_drop, ← hlen]
        omega
      by_cases hvneg : v < 0
      · rw [if_pos hvneg, if_neg (by simp [List.isEmpty_iff, hfrac_ne]),
          decAux_data_neg, decAux_neg_frac _ _ hi10 hf10 hint_ne hfrac_ne,
          List.take_append_drop, ofDigits_natDigitsW, hdroplen]
        simp only [Option.some.injEq, GoDecimal.mk.injEq]
        exact ⟨by omega, by omega⟩
      · rw [if_neg hvneg, if_neg (by simp [List.isEmpty_iff, hfrac_ne]),
          decAux_data_pos, decAux_frac _ _ hi10 hf10 hint_ne hfrac_ne,
          List.take_append_drop, ofDigits_natDigitsW, hdroplen]
        simp only [Option.some.injEq, GoDecimal.mk.injEq]
        exact ⟨by omega, by omega⟩
    · rw [if_neg hsplit, if_neg hsplit]
      have hfrac_eq :
          List.replicate ((-e).toNat - len) 0 ++ natDigitsW v.natAbs =
            (List.replicate ((-e).toNat - len) 0 ++ pre) ++ [v.natAbs % 10] := by
        rw [hpre, List.append_assoc]
      have htrim :
          trimTrailingZeros (List.replicate ((-e).toNat - len) 0 ++ natDigitsW v.natAbs) =
          List.replicate ((-e).toNat - len) 0 ++ natDigitsW v.natAbs := by
        rw [hfrac_eq]
        exact trim_append_ne _ _ hn10
      rw [htrim]
      have hfrac_ne : List.replicate ((-e).toNat - len) 0 ++ natDigitsW v.natAbs ≠ [] := by
        intro hcon
        exact hnenil (List.append_eq_nil.mp hcon).2
      have hi10 : ∀ d ∈ ([0] : List Nat), d < 10 := by
        intro d hd
        simp at hd
        omega
      have hf10 : ∀ d ∈ List.replicate ((-e).toNat - len) 0 ++ natDigitsW v.natAbs,
          d < 10 := by
        intro d hd
        rcases List.mem_append.mp hd with h1 | h2
        · have := List.eq_of_mem_replicate h1
          omega
        · exact h10 d h2
      have hint_ne : ([0] : List Nat) ≠ [] := by simp
      have hofd : ofDigits ([0] ++ (List.replicate ((-e).toNat - len) 0 ++
          natDigitsW v.natAbs)) = v.natAbs := by
        rw [show ([0] ++ (List.replicate ((-e).toNat - len) 0 ++ natDigitsW v.natAbs)) =
            0 :: (List.replicate ((-e).toNat - len) 0 ++ natDigitsW v.natAbs) from rfl,
          ofDigits_cons_zero, ofDigits_replicate_zero, ofDigits_natDigitsW]
      have hfraclen : (List.replicate ((-e).toNat - len) 0 ++
          natDigitsW v.natAbs).length = (-e).toNat := by
        rw [List.length_append, List.length_replicate, ← hlen]
        omega
      by_cases hvneg : v < 0
      · rw [if_pos hvneg, if_neg (by simp [List.isEmpty_iff, hfrac_ne]),
          decAux_data_neg, decAux_neg_frac _ _ hi10 hf10 hint_ne hfrac_ne,
          hofd, hfraclen]
        simp only [Option.some.injEq, GoDecimal.mk.injEq]
        exact ⟨by omega, by omega⟩
      · rw [if_neg hvneg, if_neg (by simp [List.isEmpty_iff, hfrac_ne]),
          decAux_data_pos, decAux_frac _ _ hi10 hf10 hint_ne hfrac_ne,
          hofd, hfraclen]
        simp only [Option.some.injEq, GoDecimal.mk.injEq]
        exact ⟨by omega, by omega⟩

theorem amount_roundtrip_exact_witness :
    normalizedDec ⟨1005, -1⟩ ∧
      decFromString (decToString ⟨1005, -1⟩) = some ⟨1005, -1⟩ :=
  ⟨by right; constructor <;> decide,
    amount_roundtrip_exact.2 ⟨1005, -1⟩ (by right; constructor <;> decide)⟩

/-- C7 (counterexample): an amount received as the decimal text `"1e2"` (a
form Go's JSON decoding and `decimal.NewFromString` accept) is re-serialized
as `"100"` by `Decimal.String()`; the signature concatenation and the
stored amount column both use `"100"`, which is not byte-identical to the
received text. -/
theorem amount_text_not_byte_identical :
    decFromString "1e2" = some ⟨1, 2⟩ ∧
    decToString ⟨1, 2⟩ = "100" ∧
    (rowOf { specEvent with amount := ⟨1, 2⟩ } 0).amount = "100" ∧
    concatPayload { specEvent with amount := ⟨1, 2⟩ } = concatPayload specEvent ∧
    ("100" : String) ≠ "1e2" :=
  ⟨by decide, by decide, by decide, by decide, by decide⟩

end Yaya
